import Mathlib

/-!
# Verification of the stochastic risk-computation engine (`app.py`)

This file shallowly embeds the five numerical procedures of the dashboard's
stochastic engine and proves or refutes the frozen specification claims about
them.  Machine floating-point arithmetic is idealised as exact rational
(`ℚ`) or real (`ℝ`) arithmetic; `scipy`/`numpy` library routines called by
the code (`hypergeom.cdf`, `np.convolve`, `np.percentile`, `scipy.linalg.expm`)
are embedded by their mathematical definitions.
-/

namespace ECommOpt

/-! ## 1. Acceptance sampling (`app.py` lines 480-612)

The code computes `prob_accept = hypergeom.cdf(acceptance_number, batch_size,
M, naive_sample_n)` with `M = int(batch_size * real_defect_rate)`, and the OC
curve by recomputing `M_sim = int(batch_size * p)`, clamped to `[0, batch_size]`,
for each grid rate `p` in `np.linspace(0, 0.20, 100)`. -/

/-- The hypergeometric probability mass function
`P(X = k) = C(M,k)·C(N−M,n−k)/C(N,n)` for a draw of `n` items from a
population of `N` with `M` marked items, as evaluated by
`scipy.stats.hypergeom.pmf` (zero outside the support `k ≤ n`). -/
def hypergeomPMF (N M n k : ℕ) : ℚ :=
  if k ≤ n then (M.choose k * (N - M).choose (n - k) : ℚ) / (N.choose n) else 0

/-- `hypergeom.cdf(c, N, M, n)`: the cumulative hypergeometric probability
`P(X ≤ c)`, the value bound to `prob_accept` in the code. -/
def hypergeomCDF (c N M n : ℕ) : ℚ :=
  ∑ k ∈ Finset.range (c + 1), hypergeomPMF N M n k

/-- Natural-number numerator `Σ_{k ≤ c} C(M,k)·C(N−M,n−k)` of the cumulative
hypergeometric probability (the common denominator being `C(N,n)`). -/
def hypNum (c N M n : ℕ) : ℕ :=
  ∑ k ∈ Finset.range (c + 1), M.choose k * (N - M).choose (n - k)

theorem hypergeomCDF_eq_hypNum_div (c N M n : ℕ) (hcn : c ≤ n) :
    hypergeomCDF c N M n = (hypNum c N M n : ℚ) / (N.choose n : ℚ) := by
  unfold hypergeomCDF hypNum hypergeomPMF
  rw [Nat.cast_sum, Finset.sum_div]
  refine Finset.sum_congr rfl fun k hk => ?_
  have hk' : k ≤ n := le_trans (Nat.lt_succ_iff.mp (Finset.mem_range.mp hk)) hcn
  rw [if_pos hk']
  push_cast
  ring

/-- Telescoping identity behind monotonicity of the hypergeometric CDF in the
number of marked items: increasing the marked count from `a` to `a + 1`
(keeping the unmarked count `b`) decreases the cumulative sum by exactly
`C(a,c)·C(b,n−c−1)`. -/
theorem hyp_telescope (a b n : ℕ) :
    ∀ c, c < n →
      (∑ k ∈ Finset.range (c + 1), (a + 1).choose k * b.choose (n - k)) +
          a.choose c * b.choose (n - c - 1) =
        ∑ k ∈ Finset.range (c + 1), a.choose k * (b + 1).choose (n - k) := by
  intro c
  induction c with
  | zero =>
    intro hn
    obtain ⟨m, rfl⟩ : ∃ m, n = m + 1 := ⟨n - 1, by omega⟩
    simp only [zero_add, Finset.sum_range_one, Nat.choose_zero_right, one_mul,
      Nat.sub_zero, Nat.add_sub_cancel]
    rw [Nat.choose_succ_succ]
    ring
  | succ c ih =>
    intro hc
    have hcn : c < n := by omega
    obtain ⟨m, hm⟩ : ∃ m, n = c + 2 + m := ⟨n - c - 2, by omega⟩
    subst hm
    have h1 : c + 2 + m - (c + 1) = m + 1 := by omega
    have h3 : c + 2 + m - c - 1 = m + 1 := by omega
    rw [Finset.sum_range_succ, Finset.sum_range_succ (fun k => a.choose k * (b + 1).choose (c + 2 + m - k)), h1, Nat.add_sub_cancel]
    have ih' := ih hcn
    rw [h3] at ih'
    rw [← ih', Nat.choose_succ_succ a c, Nat.choose_succ_succ b m]
    ring

/-- With `c = n` the cumulative sum is the full Vandermonde sum `C(N,n)`,
independent of the marked count `M`. -/
theorem hypNum_self (N M n : ℕ) (hM : M ≤ N) : hypNum n N M n = N.choose n := by
  unfold hypNum
  rw [← Finset.Nat.sum_antidiagonal_eq_sum_range_succ_mk
        (fun ij => M.choose ij.1 * (N - M).choose ij.2)]
  rw [← Nat.add_choose_eq]
  congr 1
  omega

/-- One step of monotonicity: the hypergeometric cumulative numerator is
non-increasing when the marked count grows by one. -/
theorem hypNum_succ_le (c N M n : ℕ) (hc : c ≤ n) (hMN : M < N) :
    hypNum c N (M + 1) n ≤ hypNum c N M n := by
  rcases eq_or_lt_of_le hc with rfl | hlt
  · rw [hypNum_self N M c (by omega), hypNum_self N (M + 1) c (by omega)]
  · obtain ⟨b, hb⟩ : ∃ b, N = M + 1 + b := ⟨N - M - 1, by omega⟩
    subst hb
    have h1 : M + 1 + b - (M + 1) = b := by omega
    have h2 : M + 1 + b - M = b + 1 := by omega
    unfold hypNum
    rw [h1, h2]
    exact le_of_le_of_eq (Nat.le_add_right _ _) (hyp_telescope M b n c hlt)

/-- The hypergeometric cumulative numerator is non-increasing in the marked
count `M` on `0 ≤ M ≤ N`. -/
theorem hypNum_anti (c N n : ℕ) (hc : c ≤ n) {M₁ M₂ : ℕ} (h12 : M₁ ≤ M₂)
    (h2N : M₂ ≤ N) : hypNum c N M₂ n ≤ hypNum c N M₁ n := by
  induction M₂, h12 using Nat.le_induction with
  | base => exact le_rfl
  | succ M₂ h12 ih =>
    exact le_trans (hypNum_succ_le c N M₂ n hc (by omega)) (ih (by omega))

/-- `prob_accept` is non-increasing in the true defect count `M`. -/
theorem hypergeomCDF_anti (c N n : ℕ) (hc : c ≤ n) (hn : n ≤ N)
    {M₁ M₂ : ℕ} (h12 : M₁ ≤ M₂) (h2N : M₂ ≤ N) :
    hypergeomCDF c N M₂ n ≤ hypergeomCDF c N M₁ n := by
  rw [hypergeomCDF_eq_hypNum_div c N M₂ n hc, hypergeomCDF_eq_hypNum_div c N M₁ n hc]
  have hden : (0 : ℚ) < (N.choose n : ℚ) := by
    exact_mod_cast Nat.choose_pos hn
  gcongr
  exact_mod_cast hypNum_anti c N n hc h12 h2N

/-- The 100-point defect-rate grid `np.linspace(0, 0.20, 100)`: grid point `k`
(`0 ≤ k < 100`) carries the rate `0.2·k/99 = k/495`. -/
def defectRate (k : ℕ) : ℚ := (k : ℚ) / 495

/-- The defect count the OC-curve loop assumes at grid point `k`:
`M_sim = max(0, min(int(batch_size * p), batch_size))` with truncating `int`
(idealised over exact rationals, `int(N·k/495) = N·k/495` in `ℕ`-division). -/
def ocM (N k : ℕ) : ℕ := min (N * k / 495) N

/-- `probs_accept`: the OC-curve ordinates, one per grid point, with the
defect count recomputed from the grid rate at every point. -/
def probsAccept (N n c : ℕ) : List ℚ :=
  (List.range 100).map fun k => hypergeomCDF c N (ocM N k) n

theorem probsAccept_getD (N n c k : ℕ) (hk : k < 100) :
    (probsAccept N n c).getD k 0 = hypergeomCDF c N (ocM N k) n := by
  have hk' : k < (probsAccept N n c).length := by
    simpa [probsAccept] using hk
  rw [List.getD_eq_getElem _ _ hk']
  simp [probsAccept]

theorem ocM_mono (N : ℕ) {k₁ k₂ : ℕ} (h : k₁ ≤ k₂) : ocM N k₁ ≤ ocM N k₂ :=
  min_le_min (Nat.div_le_div_right (Nat.mul_le_mul_left N h)) le_rfl

/-- C4: for a fixed plan `(N, n, c)` with `n ≤ N` and `c ≤ n`, the acceptance
probability `prob_accept` is monotonically non-increasing in the assumed
defect count `M` on `0 ≤ M ≤ N`, and consequently the OC-curve ordinates
`probs_accept` are monotonically non-increasing along the defect-rate grid. -/
theorem prob_accept_antitone (N n c : ℕ) (hn : n ≤ N) (hc : c ≤ n) :
    (∀ M₁ M₂ : ℕ, M₁ ≤ M₂ → M₂ ≤ N →
        hypergeomCDF c N M₂ n ≤ hypergeomCDF c N M₁ n) ∧
      ∀ k₁ k₂ : ℕ, k₁ ≤ k₂ → k₂ < 100 →
        (probsAccept N n c).getD k₂ 0 ≤ (probsAccept N n c).getD k₁ 0 := by
  constructor
  · intro M₁ M₂ h12 h2N
    exact hypergeomCDF_anti c N n hc hn h12 h2N
  · intro k₁ k₂ h12 h2
    rw [probsAccept_getD N n c k₂ h2, probsAccept_getD N n c k₁ (lt_of_le_of_lt h12 h2)]
    exact hypergeomCDF_anti c N n hc hn (ocM_mono N h12) (min_le_right _ _)

theorem prob_accept_antitone_witness :
    (100 : ℕ) ≤ 1000 ∧ (0 : ℕ) ≤ 100 ∧
      hypergeomCDF 0 1000 60 100 ≤ hypergeomCDF 0 1000 50 100 ∧
      (probsAccept 1000 100 0).getD 99 0 ≤ (probsAccept 1000 100 0).getD 10 0 := by
  have h := prob_accept_antitone 1000 100 0 (by norm_num) (by norm_num)
  exact ⟨by norm_num, by norm_num, h.1 50 60 (by norm_num) (by norm_num),
    h.2 10 99 (by norm_num) (by norm_num)⟩

theorem hypergeomCDF_zero (N M n : ℕ) :
    hypergeomCDF 0 N M n = ((N - M).choose n : ℚ) / (N.choose n : ℚ) := by
  simp [hypergeomCDF, hypergeomPMF]

/-- Exact two-sided bounds for the default concrete plan `N = 1000`, `M = 50`,
`n = 100`, `c = 0`: the acceptance probability
`C(950,100)/C(1000,100) = 0.004475…` lies in `[0.0044, 0.0045]`. -/
theorem prob_accept_default_bounds :
    44 / 10000 ≤ hypergeomCDF 0 1000 50 100 ∧
      hypergeomCDF 0 1000 50 100 ≤ 45 / 10000 := by
  have hdesc : ∀ a : ℕ,
      (Nat.descFactorial a 100 : ℚ) = (Nat.factorial 100 : ℚ) * (Nat.choose a 100 : ℚ) := by
    intro a
    exact_mod_cast congrArg (Nat.cast : ℕ → ℚ) (Nat.descFactorial_eq_factorial_mul_choose a 100)
  have hfac : (Nat.factorial 100 : ℚ) ≠ 0 := by
    exact_mod_cast Nat.factorial_ne_zero 100
  have hval : hypergeomCDF 0 1000 50 100 =
      (Nat.descFactorial 950 100 : ℚ) / (Nat.descFactorial 1000 100 : ℚ) := by
    rw [hypergeomCDF_zero]
    rw [hdesc 950, hdesc 1000, mul_div_mul_left _ _ hfac]
  have hpos : (0 : ℚ) < (Nat.descFactorial 1000 100 : ℚ) := by
    have : 0 < Nat.descFactorial 1000 100 := by decide
    exact_mod_cast this
  have hlow : (44 : ℕ) * Nat.descFactorial 1000 100 ≤ 10000 * Nat.descFactorial 950 100 := by
    decide
  have hhigh : (10000 : ℕ) * Nat.descFactorial 950 100 ≤ 45 * Nat.descFactorial 1000 100 := by
    decide
  have hlow' : (44 : ℚ) * (Nat.descFactorial 1000 100 : ℚ) ≤
      10000 * (Nat.descFactorial 950 100 : ℚ) := by exact_mod_cast hlow
  have hhigh' : (10000 : ℚ) * (Nat.descFactorial 950 100 : ℚ) ≤
      45 * (Nat.descFactorial 1000 100 : ℚ) := by exact_mod_cast hhigh
  rw [hval]
  constructor
  · rw [div_le_div_iff (by norm_num) hpos]
    linarith
  · rw [div_le_div_iff hpos (by norm_num)]
    linarith

/-- C5 counterexample: for the concrete plan `N=1000, M=50, n=100, c=0` the
cumulative hypergeometric probability computed by the code is not
approximately `0.0059`: it differs from `0.0059` by more than `0.0013`
(the exact value is `C(950,100)/C(1000,100) ≈ 0.00448`; `0.0059` is the
binomial approximation `0.95^100`, which the hypergeometric does not match). -/
theorem prob_accept_default_not_0059 :
    13 / 10000 < |hypergeomCDF 0 1000 50 100 - 59 / 10000| := by
  obtain ⟨h1, h2⟩ := prob_accept_default_bounds
  rw [abs_sub_comm, abs_of_pos (by linarith)]
  linarith

/-- C5 (amended): for the concrete plan `N=1000, M=50, n=100, c=0` the
acceptance probability is approximately `0.0045` (exactly
`C(950,100)/C(1000,100) = 0.004475…`), within `0.0001`. -/
theorem prob_accept_default_approx :
    |hypergeomCDF 0 1000 50 100 - 45 / 10000| ≤ 1 / 10000 := by
  obtain ⟨h1, h2⟩ := prob_accept_default_bounds
  rw [abs_le]
  constructor <;> linarith

/-- Possible outcomes of evaluating the `prob_accept` expression. -/
inductive AcceptOutcome where
  | value (q : ℚ)
  | nanResult
  | validationError
deriving DecidableEq

/-- Models `scipy.stats.hypergeom.cdf(c, N, M, n)` including its domain
behaviour: parameters outside the domain (`M > N` or `n > N`) make scipy
return NaN (here `none`) instead of raising an error. -/
def scipyHypergeomCDF (c N M n : ℕ) : Option ℚ :=
  if M ≤ N ∧ n ≤ N then some (hypergeomCDF c N M n) else none

/-- The code's `prob_accept` computation path (app.py line 493): the library
CDF is called directly on the parameters, with no validation step before the
call; a NaN result would simply be propagated. -/
def probAcceptRun (N M n c : ℕ) : AcceptOutcome :=
  match scipyHypergeomCDF c N M n with
  | some q => AcceptOutcome.value q
  | none => AcceptOutcome.nanResult

/-- `M = int(batch_size * real_defect_rate)` where the defect-rate slider
provides `s/10` percent for an integer `0 ≤ s ≤ 200` (slider `0.0–20.0`,
step `0.1`), i.e. the rate is `s/1000`. -/
def interfaceM (N s : ℕ) : ℕ := N * s / 1000

/-- `naive_sample_n = int(batch_size * naive_inspection_rate)` where the
inspection-rate slider provides `r` percent, `0 ≤ r ≤ 100`. -/
def interfaceSampleN (N r : ℕ) : ℕ := N * r / 100

/-- C6 counterexample: on an out-of-range input (`M = 200 > N = 100`) the
`prob_accept` computation path does not raise an input-validation error
before computation; it evaluates the CDF call and propagates the NaN
result. -/
theorem prob_accept_no_validation :
    probAcceptRun 100 200 10 0 = AcceptOutcome.nanResult ∧
      AcceptOutcome.nanResult ≠ AcceptOutcome.validationError := by
  constructor
  · rfl
  · intro h
    cases h

/-- C6 (amended): the code contains no validation step, but every combination
the interface can produce satisfies `M ≤ N` and `n ≤ N` (the defect-rate
slider is capped at 20 % and the inspection-rate slider at 100 %), so the CDF
call always receives in-range parameters and returns a finite value; NaN
propagation is unreachable from the interface. -/
theorem interface_inputs_in_range (N s r c : ℕ) (hs : s ≤ 200) (hr : r ≤ 100) :
    interfaceM N s ≤ N ∧ interfaceSampleN N r ≤ N ∧
      probAcceptRun N (interfaceM N s) (interfaceSampleN N r) c =
        AcceptOutcome.value (hypergeomCDF c N (interfaceM N s) (interfaceSampleN N r)) := by
  have hM : interfaceM N s ≤ N := by
    unfold interfaceM
    calc N * s / 1000 ≤ N * 1000 / 1000 :=
          Nat.div_le_div_right (Nat.mul_le_mul_left N (by omega))
    _ = N := Nat.mul_div_cancel N (by norm_num)
  have hn : interfaceSampleN N r ≤ N := by
    unfold interfaceSampleN
    calc N * r / 100 ≤ N * 100 / 100 :=
          Nat.div_le_div_right (Nat.mul_le_mul_left N hr)
    _ = N := Nat.mul_div_cancel N (by norm_num)
  refine ⟨hM, hn, ?_⟩
  unfold probAcceptRun scipyHypergeomCDF
  rw [if_pos ⟨hM, hn⟩]

theorem interface_inputs_in_range_witness :
    (50 : ℕ) ≤ 200 ∧ (10 : ℕ) ≤ 100 ∧
      (interfaceM 1000 50 ≤ 1000 ∧ interfaceSampleN 1000 10 ≤ 1000 ∧
        probAcceptRun 1000 (interfaceM 1000 50) (interfaceSampleN 1000 10) 0 =
          AcceptOutcome.value
            (hypergeomCDF 0 1000 (interfaceM 1000 50) (interfaceSampleN 1000 10))) :=
  ⟨by norm_num, by norm_num,
    interface_inputs_in_range 1000 50 10 0 (by norm_num) (by norm_num)⟩

/-- C7 counterexample: at OC-grid point `k = 25` (defect rate `25/495 ≈ 5.05 %`)
with the default batch size `N = 1000`, the code's truncating
`M_sim = int(N·p) = 50` differs from the claimed `round(N·p) = 51`, and the
two defect counts give genuinely different acceptance probabilities for the
plan `n = 100`, `c = 0`. -/
theorem ocM_truncates_not_rounds :
    ocM 1000 25 = 50 ∧ round ((1000 : ℚ) * defectRate 25) = 51 ∧
      hypergeomCDF 0 1000 50 100 ≠ hypergeomCDF 0 1000 51 100 := by
  refine ⟨by decide, ?_, ?_⟩
  · simp only [defectRate]
    rw [round_eq, Int.floor_eq_iff]
    constructor <;> norm_num
  · rw [hypergeomCDF_zero, hypergeomCDF_zero]
    have h50 : (1000 : ℕ) - 50 = 950 := by norm_num
    have h51 : (1000 : ℕ) - 51 = 949 := by norm_num
    rw [h50, h51]
    intro heq
    have hden : ((1000 : ℕ).choose 100 : ℚ) ≠ 0 := by
      have hpos : 0 < (1000 : ℕ).choose 100 := Nat.choose_pos (by norm_num)
      exact_mod_cast hpos.ne'
    have heqN : (950 : ℕ).choose 100 = (949 : ℕ).choose 100 := by
      field_simp at heq
      exact_mod_cast heq
    have hstep := Nat.choose_succ_succ 949 99
    have h950 : (949 : ℕ) + 1 = 950 := by norm_num
    have h100 : (99 : ℕ) + 1 = 100 := by norm_num
    simp only [Nat.succ_eq_add_one] at hstep
    rw [h950, h100] at hstep
    have hpos99 : 0 < (949 : ℕ).choose 99 := Nat.choose_pos (by norm_num)
    omega

/-- C7 (amended): the OC-curve loop recomputes the assumed defect count at
every grid point `k` — but by truncation `M_sim = int(N·p)` clamped to
`[0, N]`, not by rounding — and evaluates the hypergeometric acceptance
probability at that per-point count. -/
theorem ocCurve_M_per_point (N n c k : ℕ) (hk : k < 100) :
    (probsAccept N n c).getD k 0 = hypergeomCDF c N (ocM N k) n ∧
      (ocM N k : ℤ) = max 0 (min ⌊(N : ℚ) * defectRate k⌋ (N : ℤ)) := by
  refine ⟨probsAccept_getD N n c k hk, ?_⟩
  have hcast : (N : ℚ) * defectRate k = ((N * k : ℕ) : ℚ) / ((495 : ℕ) : ℚ) := by
    simp only [defectRate]
    push_cast
    ring
  rw [hcast, Rat.floor_natCast_div_natCast]
  have hdiv : ((N * k : ℕ) : ℤ) / ((495 : ℕ) : ℤ) = ((N * k / 495 : ℕ) : ℤ) :=
    (Int.ofNat_div _ _).symm
  rw [hdiv]
  have hmin : ((min (N * k / 495) N : ℕ) : ℤ) = min ((N * k / 495 : ℕ) : ℤ) (N : ℤ) :=
    Nat.cast_min _ _
  rw [ocM, hmin]
  exact (max_eq_right (le_min (Int.natCast_nonneg _) (Int.natCast_nonneg _))).symm

theorem ocCurve_M_per_point_witness :
    25 < 100 ∧
      ((probsAccept 1000 100 0).getD 25 0 = hypergeomCDF 0 1000 (ocM 1000 25) 100 ∧
        (ocM 1000 25 : ℤ) = max 0 (min ⌊(1000 : ℚ) * defectRate 25⌋ (1000 : ℤ))) :=
  ⟨by norm_num, ocCurve_M_per_point 1000 100 0 25 (by norm_num)⟩

/-! ## 2. Cost-risk transformer (`app.py` lines 880-889 and 1142-1147)

The code squares the cleaned service times (`risks = service_times_clean ** 2`)
and reports `var_95 = np.percentile(risks, 95)` and
`var_99 = np.percentile(risks, 99)`. -/

/-- Linear interpolation between neighbouring order statistics of a (sorted)
list at fractional index `h`, with both indices clipped to the last element —
the interpolation rule of `np.percentile`'s default method. -/
def interpAt (s : List ℚ) (h : ℚ) : ℚ :=
  s.getD (min (⌊h⌋).toNat (s.length - 1)) 0 +
    (h - ⌊h⌋) * (s.getD (min ((⌊h⌋).toNat + 1) (s.length - 1)) 0 -
      s.getD (min (⌊h⌋).toNat (s.length - 1)) 0)

/-- `np.percentile(xs, q)`: sort the sample and linearly interpolate the
order statistics at fractional index `q·(n−1)/100`. -/
def npPercentile (xs : List ℚ) (q : ℚ) : ℚ :=
  if (xs.insertionSort (· ≤ ·)).length = 0 then 0
  else
    interpAt (xs.insertionSort (· ≤ ·))
      (q * (((xs.insertionSort (· ≤ ·)).length : ℚ) - 1) / 100)

/-- `risks = service_times_clean ** 2`: the transformed cost sample
`g(t) = t²`. -/
def risks (ts : List ℚ) : List ℚ := ts.map fun t => t ^ 2

/-- `var_95 = np.percentile(risks, 95)`. -/
def var_95 (ts : List ℚ) : ℚ := npPercentile (risks ts) 95

/-- `var_99 = np.percentile(risks, 99)`. -/
def var_99 (ts : List ℚ) : ℚ := npPercentile (risks ts) 99

theorem sorted_getD_mono {s : List ℚ} (hs : List.Sorted (· ≤ ·) s) {i j : ℕ}
    (hij : i ≤ j) (hj : j < s.length) : s.getD i 0 ≤ s.getD j 0 := by
  have hi : i < s.length := lt_of_le_of_lt hij hj
  rw [List.getD_eq_get _ _ hi, List.getD_eq_get _ _ hj]
  exact hs.rel_get_of_le (Fin.mk_le_mk.mpr hij)

theorem interpAt_mono (s : List ℚ) (hsort : List.Sorted (· ≤ ·) s)
    (hne : s.length ≠ 0) {h₁ h₂ : ℚ} (h0 : 0 ≤ h₁) (h12 : h₁ ≤ h₂) :
    interpAt s h₁ ≤ interpAt s h₂ := by
  have hn1 : 1 ≤ s.length := Nat.pos_of_ne_zero hne
  have hfl1 : (0 : ℤ) ≤ ⌊h₁⌋ := Int.floor_nonneg.mpr h0
  have hfl12 : ⌊h₁⌋ ≤ ⌊h₂⌋ := Int.floor_le_floor h12
  have hf1a : (⌊h₁⌋ : ℚ) ≤ h₁ := Int.floor_le h₁
  have hf1b : h₁ < ⌊h₁⌋ + 1 := Int.lt_floor_add_one h₁
  have hf2a : (⌊h₂⌋ : ℚ) ≤ h₂ := Int.floor_le h₂
  unfold interpAt
  set n := s.length with hn
  set i₁ := (⌊h₁⌋).toNat with hi₁
  set i₂ := (⌊h₂⌋).toNat with hi₂
  set B₁ := s.getD (min i₁ (n - 1)) 0 with hB₁
  set A₁ := s.getD (min (i₁ + 1) (n - 1)) 0 with hA₁
  set B₂ := s.getD (min i₂ (n - 1)) 0 with hB₂
  set A₂ := s.getD (min (i₂ + 1) (n - 1)) 0 with hA₂
  have hA1lt : min (i₁ + 1) (n - 1) < n := lt_of_le_of_lt (min_le_right _ _) (by omega)
  have hA2lt : min (i₂ + 1) (n - 1) < n := lt_of_le_of_lt (min_le_right _ _) (by omega)
  have hB2lt : min i₂ (n - 1) < n := lt_of_le_of_lt (min_le_right _ _) (by omega)
  have key1 : B₁ ≤ A₁ :=
    sorted_getD_mono hsort (min_le_min (Nat.le_succ i₁) le_rfl) hA1lt
  have key2 : B₂ ≤ A₂ :=
    sorted_getD_mono hsort (min_le_min (Nat.le_succ i₂) le_rfl) hA2lt
  rcases eq_or_lt_of_le hfl12 with heq | hlt
  · have hii : i₂ = i₁ := by rw [hi₁, hi₂, heq]
    rw [hii] at hB₂ hA₂
    have hBB : B₂ = B₁ := by rw [hB₂, hB₁]
    have hAA : A₂ = A₁ := by rw [hA₂, hA₁]
    rw [hBB, hAA]
    have hfr : h₁ - ⌊h₁⌋ ≤ h₂ - ⌊h₂⌋ := by
      rw [← heq]; linarith
    have hmul : (h₁ - ⌊h₁⌋) * (A₁ - B₁) ≤ (h₂ - ⌊h₂⌋) * (A₁ - B₁) :=
      mul_le_mul_of_nonneg_right hfr (by linarith)
    linarith
  · have hstep : i₁ + 1 ≤ i₂ := by omega
    have hmid : A₁ ≤ B₂ :=
      sorted_getD_mono hsort (min_le_min hstep le_rfl) hB2lt
    have hv1 : B₁ + (h₁ - ⌊h₁⌋) * (A₁ - B₁) ≤ A₁ := by
      have hnn : 0 ≤ (1 - (h₁ - ⌊h₁⌋)) * (A₁ - B₁) :=
        mul_nonneg (by linarith) (by linarith)
      nlinarith
    have hv2 : B₂ ≤ B₂ + (h₂ - ⌊h₂⌋) * (A₂ - B₂) := by
      have hnn : 0 ≤ (h₂ - ⌊h₂⌋) * (A₂ - B₂) :=
        mul_nonneg (by linarith) (by linarith)
      linarith
    linarith

theorem npPercentile_mono (xs : List ℚ) {q₁ q₂ : ℚ} (h0 : 0 ≤ q₁)
    (h12 : q₁ ≤ q₂) : npPercentile xs q₁ ≤ npPercentile xs q₂ := by
  unfold npPercentile
  by_cases hz : (xs.insertionSort (· ≤ ·)).length = 0
  · simp only [if_pos hz]
    exact le_refl 0
  · rw [if_neg hz, if_neg hz]
    have hsort := List.sorted_insertionSort (· ≤ ·) xs
    have hlen1 : 1 ≤ (xs.insertionSort (· ≤ ·)).length := Nat.pos_of_ne_zero hz
    have hcast : (0 : ℚ) ≤ ((xs.insertionSort (· ≤ ·)).length : ℚ) - 1 := by
      have h1 : (1 : ℚ) ≤ ((xs.insertionSort (· ≤ ·)).length : ℚ) := by
        exact_mod_cast hlen1
      linarith
    apply interpAt_mono _ hsort hz
    · exact div_nonneg (mul_nonneg h0 hcast) (by norm_num)
    · have hmul := mul_le_mul_of_nonneg_right h12 hcast
      linarith

/-- C8: for every non-empty sample of positive time observations, the
99 %-VaR of the transformed cost sample `{t²}` is at least the 95 %-VaR. -/
theorem var_99_ge_var_95 (ts : List ℚ) (hne : ts ≠ [])
    (hpos : ∀ t ∈ ts, 0 < t) : var_95 ts ≤ var_99 ts :=
  npPercentile_mono (risks ts) (by norm_num) (by norm_num)

theorem var_99_ge_var_95_witness :
    ([1, 3, 2] : List ℚ) ≠ [] ∧ (∀ t ∈ ([1, 3, 2] : List ℚ), 0 < t) ∧
      var_95 [1, 3, 2] ≤ var_99 [1, 3, 2] := by
  refine ⟨by simp, ?_, ?_⟩
  · intro t ht
    fin_cases ht <;> norm_num
  · exact var_99_ge_var_95 [1, 3, 2] (by simp) (by
      intro t ht
      fin_cases ht <;> norm_num)

/-! ## 3. Service-time convolver (`app.py` lines 1573-1599)

The code samples two log-normal densities on `np.linspace(0, 30, 1000)` and
computes `pdf_total = np.convolve(pdf_pick, pdf_pack, mode='full') * dx`.
The structural content of the mass invariant is that full discrete
convolution multiplies total masses; the embedding below takes the two
discretized density vectors as inputs. -/

/-- `np.convolve(a, b, mode='full')`: output length `la + lb − 1`, entry `k`
is `Σ_i a_i·b_{k−i}` (indices out of range contributing `0`). -/
def npConvolve (a b : List ℚ) : List ℚ :=
  (List.range (a.length + b.length - 1)).map fun k =>
    ∑ i ∈ Finset.range (k + 1), a.getD i 0 * b.getD (k - i) 0

/-- `pdf_total = np.convolve(pdf_pick, pdf_pack, mode='full') * dx`. -/
def pdfTotal (a b : List ℚ) (dx : ℚ) : List ℚ :=
  (npConvolve a b).map fun v => v * dx

theorem list_sum_map_range (n : ℕ) (f : ℕ → ℚ) :
    (((List.range n).map f).sum) = ∑ k ∈ Finset.range n, f k := by
  induction n with
  | zero => simp
  | succ n ih =>
    rw [List.range_succ, List.map_append, List.sum_append, Finset.sum_range_succ, ih]
    simp

theorem getD_sum_range (b : List ℚ) :
    ∀ m, b.length ≤ m → ∑ j ∈ Finset.range m, b.getD j 0 = b.sum := by
  induction b with
  | nil =>
    intro m _
    simp
  | cons x xs ih =>
    intro m hm
    obtain ⟨m', rfl⟩ : ∃ m', m = m' + 1 := ⟨m - 1, by simp at hm; omega⟩
    rw [Finset.sum_range_succ']
    simp only [List.getD_cons_succ, List.getD_cons_zero, List.sum_cons]
    rw [ih m' (by simp at hm; omega)]
    ring

/-- Full discrete convolution multiplies total sums:
`Σ np.convolve(a,b) = (Σ a)·(Σ b)`. -/
theorem npConvolve_sum (a b : List ℚ) :
    (npConvolve a b).sum = a.sum * b.sum := by
  rcases b with _ | ⟨y, ys⟩
  · unfold npConvolve
    rw [list_sum_map_range]
    simp
  · set b := y :: ys with hb
    have hlb : 1 ≤ b.length := by rw [hb]; simp
    unfold npConvolve
    rw [list_sum_map_range]
    set n := a.length + b.length - 1 with hn
    have hstep1 : ∀ k ∈ Finset.range n,
        (∑ i ∈ Finset.range (k + 1), a.getD i 0 * b.getD (k - i) 0) =
          ∑ i ∈ Finset.range n, if i ≤ k then a.getD i 0 * b.getD (k - i) 0 else 0 := by
      intro k hk
      have hk' : k < n := Finset.mem_range.mp hk
      rw [Finset.sum_ite, Finset.sum_const_zero, add_zero]
      have hfil : Finset.filter (fun i => i ≤ k) (Finset.range n) =
          Finset.range (k + 1) := by
        ext i
        simp only [Finset.mem_filter, Finset.mem_range]
        omega
      rw [hfil]
    rw [Finset.sum_congr rfl hstep1, Finset.sum_comm]
    have hstep2 : ∀ i ∈ Finset.range n,
        (∑ k ∈ Finset.range n, if i ≤ k then a.getD i 0 * b.getD (k - i) 0 else 0) =
          a.getD i 0 * b.sum := by
      intro i hi
      have hi' : i < n := Finset.mem_range.mp hi
      rw [Finset.sum_ite, Finset.sum_const_zero, add_zero]
      have hfil : Finset.filter (fun k => i ≤ k) (Finset.range n) = Finset.Ico i n := by
        ext k
        simp only [Finset.mem_filter, Finset.mem_range, Finset.mem_Ico]
        omega
      rw [hfil, Finset.sum_Ico_eq_sum_range]
      have hsimp : ∀ j ∈ Finset.range (n - i),
          a.getD i 0 * b.getD (i + j - i) 0 = a.getD i 0 * b.getD j 0 := by
        intro j _
        congr 2
        omega
      rw [Finset.sum_congr rfl hsimp, ← Finset.mul_sum]
      by_cases hia : i < a.length
      · rw [getD_sum_range b (n - i) (by omega)]
      · rw [List.getD_eq_default _ _ (by omega), zero_mul, zero_mul]
    rw [Finset.sum_congr rfl hstep2, ← Finset.sum_mul]
    congr 1
    exact getD_sum_range a n (by omega)

theorem pdfTotal_mass (a b : List ℚ) (dx : ℚ) :
    (pdfTotal a b dx).sum * dx = (a.sum * dx) * (b.sum * dx) := by
  unfold pdfTotal
  have hmap : ((npConvolve a b).map fun v => v * dx).sum = (npConvolve a b).sum * dx := by
    induction npConvolve a b with
    | nil => simp
    | cons v vs ih => simp [ih]; ring
  rw [hmap, npConvolve_sum]
  ring

/-- C9: the total probability mass of the discretized convolved density
`pdf_total` over its output grid (step `dx`, the same step as the input
grids) equals the product of the input masses; hence whenever each
discretized input density has mass within `ε` of `1`, the convolved density
has mass within `2ε + ε²` of `1` — it sums to 1 within numerical tolerance. -/
theorem convolved_mass_near_one (a b : List ℚ) (dx ε : ℚ) (hε : 0 ≤ ε)
    (ha : |a.sum * dx - 1| ≤ ε) (hb : |b.sum * dx - 1| ≤ ε) :
    |(pdfTotal a b dx).sum * dx - 1| ≤ 2 * ε + ε ^ 2 := by
  rw [pdfTotal_mass]
  set x := a.sum * dx with hx
  set y := b.sum * dx with hy
  have h1 : x * y - 1 = (x - 1) * (y - 1) + (x - 1) + (y - 1) := by ring
  rw [h1]
  calc |(x - 1) * (y - 1) + (x - 1) + (y - 1)|
      ≤ |(x - 1) * (y - 1) + (x - 1)| + |y - 1| := abs_add _ _
    _ ≤ |(x - 1) * (y - 1)| + |x - 1| + |y - 1| := by
        linarith [abs_add ((x - 1) * (y - 1)) (x - 1)]
    _ = |x - 1| * |y - 1| + |x - 1| + |y - 1| := by rw [abs_mul]
    _ ≤ ε * ε + ε + ε := by
        have hm := mul_le_mul ha hb (abs_nonneg _) hε
        linarith
    _ = 2 * ε + ε ^ 2 := by ring

theorem convolved_mass_near_one_witness :
    (0 : ℚ) ≤ 0 ∧ |(([2] : List ℚ).sum * (1 / 2) - 1)| ≤ 0 ∧
      |(pdfTotal [2] [2] (1 / 2)).sum * (1 / 2) - 1| ≤ 2 * 0 + 0 ^ 2 :=
  ⟨le_refl 0, by norm_num,
    convolved_mass_near_one [2] [2] (1 / 2) 0 (le_refl 0) (by norm_num) (by norm_num)⟩

/-! ## 4. Demand time-series analyzer: ACF significance (`app.py` lines 2152,
2297, 2309-2312)

The ACF chart colours a lag's bar red exactly when `abs(val) > 0.3` (a fixed
threshold, line 2297; the seasonal-lag "Strong Memory" label at line 2152
uses the same `0.3`).  The 95 % confidence band `±1.96/√n` is computed at
line 2309 but only drawn as dashed lines; it plays no part in the flagging. -/

/-- The flagging rule of the code: lag significant (bar drawn red) iff
`|ρₖ| > 0.3`. -/
def acfSignificant (v : ℚ) : Bool := decide ((3 : ℚ) / 10 < |v|)

/-- `colors` (line 2297): one flag per autocorrelation value. -/
def acfColors (acf : List ℚ) : List Bool := acf.map acfSignificant

/-- `confidence_bound = 1.96 / np.sqrt(len(ts_data))` (line 2309). -/
noncomputable def confidenceBound (n : ℕ) : ℝ := 1.96 / Real.sqrt n

/-- C10 counterexample: for a series of length `n = 25` the 95 % confidence
band is `1.96/√25 = 0.392`; an autocorrelation value `ρ = 0.35` is flagged
significant by the code (`0.35 > 0.3`) although it does not exceed the
band — the flagging is not the band criterion. -/
theorem acf_flag_not_band :
    acfSignificant (7 / 20) = true ∧
      ¬ (confidenceBound 25 < |((7 / 20 : ℚ) : ℝ)|) := by
  constructor
  · unfold acfSignificant
    rw [decide_eq_true_eq]
    rw [abs_of_pos (by norm_num)]
    norm_num
  · intro hcontra
    unfold confidenceBound at hcontra
    have h5 : Real.sqrt ((25 : ℕ) : ℝ) = 5 := by
      rw [show ((25 : ℕ) : ℝ) = 5 ^ 2 by norm_num]
      exact Real.sqrt_sq (by norm_num)
    rw [h5] at hcontra
    have hcast : ((7 / 20 : ℚ) : ℝ) = 7 / 20 := by norm_num
    rw [hcast, abs_of_pos (by norm_num)] at hcontra
    norm_num at hcontra

/-- C10 (amended): the autocorrelation display flags lag `k` as significant
exactly when `|ρₖ| > 0.3`, a fixed threshold independent of the series
length; the band `±1.96/√n` is drawn but not used as the flagging
criterion. -/
theorem acfColors_fixed_threshold (acf : List ℚ) (k : ℕ) (hk : k < acf.length) :
    ((acfColors acf).getD k false = true ↔ (3 : ℚ) / 10 < |acf.getD k 0|) := by
  have hk' : k < (acfColors acf).length := by simpa [acfColors] using hk
  rw [List.getD_eq_getElem _ _ hk', List.getD_eq_getElem _ _ hk]
  simp [acfColors, acfSignificant]

theorem acfColors_fixed_threshold_witness :
    1 < ([1, 1/2, 1/10] : List ℚ).length ∧
      ((acfColors [1, 1/2, 1/10]).getD 1 false = true ↔
        (3 : ℚ) / 10 < |([1, 1/2, 1/10] : List ℚ).getD 1 0|) :=
  ⟨by simp, acfColors_fixed_threshold [1, 1/2, 1/10] 1 (by simp)⟩

/-! ## 5. Transient Markov solver (`app.py` lines 2734-2759, 2842-2847,
2956-2967)

The interface accepts an arrival-rate slider `λ ∈ {10, 15, …, 200}` and a
server count `num_servers ≥ 1` (so `μ = 2·num_servers ≥ 2`); the generator
is built from `utilization = λ/μ`.  The construction is embedded generically
over an ordered field so that the same definitions serve the exact-rational
claims and the real-analytic transient claims. -/

section MarkovDefs

variable (K : Type*) [LinearOrderedField K]

/-- `stress_factor = utilization / (2 - utilization)` (line 2740). -/
def stress_factor (rho : K) : K := rho / (2 - rho)

/-- `up_rate = lambda_rate * stress_factor / 20.0` (line 2741). -/
def up_rate (lam mu : K) : K := lam * stress_factor K (lam / mu) / 20

/-- `down_rate = service_capacity / 20.0` (line 2742). -/
def down_rate (mu : K) : K := mu / 20

/-- `failure_rate = up_rate * 2 if utilization > 0.9 else up_rate * 0.5`
(line 2745). -/
def failure_rate (lam mu : K) : K :=
  if 9 / 10 < lam / mu then up_rate K lam mu * 2 else up_rate K lam mu * (1 / 2)

/-- The CTMC generator matrix `Q` (lines 2754-2759). -/
def buildQ (lam mu : K) : Matrix (Fin 4) (Fin 4) K :=
  !![-(up_rate K lam mu), up_rate K lam mu, 0, 0;
    down_rate K mu, -(up_rate K lam mu + down_rate K mu), up_rate K lam mu, 0;
    0, down_rate K mu, -(failure_rate K lam mu + down_rate K mu), failure_rate K lam mu;
    0, 0, 0, 0]

end MarkovDefs

section MarkovBasic

variable {K : Type*} [LinearOrderedField K]

theorem buildQ_rowsum (lam mu : K) (i : Fin 4) :
    ∑ j, buildQ K lam mu i j = 0 := by
  fin_cases i <;> simp [buildQ, Fin.sum_univ_four, Matrix.vecHead, Matrix.vecTail] <;> ring

theorem buildQ_absorbing (lam mu : K) (j : Fin 4) : buildQ K lam mu 3 j = 0 := by
  fin_cases j <;> simp [buildQ, Matrix.vecHead, Matrix.vecTail]

theorem up_rate_nonneg {lam mu : K} (hlam : 0 ≤ lam) (hmu : 0 < mu)
    (hrho : lam / mu < 2) : 0 ≤ up_rate K lam mu := by
  have hrho0 : 0 ≤ lam / mu := div_nonneg hlam hmu.le
  have hs : 0 ≤ stress_factor K (lam / mu) :=
    div_nonneg hrho0 (by linarith)
  exact div_nonneg (mul_nonneg hlam hs) (by norm_num)

theorem down_rate_nonneg {mu : K} (hmu : 0 < mu) : 0 ≤ down_rate K mu :=
  div_nonneg hmu.le (by norm_num)

theorem failure_rate_nonneg {lam mu : K} (hlam : 0 ≤ lam) (hmu : 0 < mu)
    (hrho : lam / mu < 2) : 0 ≤ failure_rate K lam mu := by
  have hu := up_rate_nonneg hlam hmu hrho
  unfold failure_rate
  split_ifs <;> nlinarith

theorem buildQ_offdiag_nonneg {lam mu : K} (hlam : 0 ≤ lam) (hmu : 0 < mu)
    (hrho : lam / mu < 2) {i j : Fin 4} (hij : i ≠ j) :
    0 ≤ buildQ K lam mu i j := by
  have hu := up_rate_nonneg hlam hmu hrho
  have hd := down_rate_nonneg (K := K) hmu
  have hf := failure_rate_nonneg hlam hmu hrho
  fin_cases i <;> fin_cases j <;> simp_all [buildQ, Matrix.vecHead, Matrix.vecTail]

theorem buildQ_diag_nonpos {lam mu : K} (hlam : 0 ≤ lam) (hmu : 0 < mu)
    (hrho : lam / mu < 2) (i : Fin 4) : buildQ K lam mu i i ≤ 0 := by
  have hu := up_rate_nonneg hlam hmu hrho
  have hd := down_rate_nonneg (K := K) hmu
  have hf := failure_rate_nonneg hlam hmu hrho
  fin_cases i <;> simp [buildQ, Matrix.vecHead, Matrix.vecTail] <;> linarith

end MarkovBasic

/-- C1 counterexample: the interface accepts `λ = 200` (arrival slider
maximum) with `num_servers = 1`, i.e. `μ = 2·1`; there `ρ = 100`, the stress
factor `ρ/(2−ρ)` is negative, and the off-diagonal entry `Q[0][1] = up_rate`
is negative — the generator sign conditions of the claim fail. -/
theorem buildQ_sign_violated_at_interface_input :
    buildQ ℚ 200 (2 * 1) 0 1 < 0 := by
  simp only [buildQ, up_rate, stress_factor]
  norm_num [Matrix.cons_val_one, Matrix.cons_val_zero, Matrix.head_cons]

/-- C1 (amended): for every arrival rate `λ ≥ 0` and capacity `μ > 0` with
utilization `ρ = λ/μ < 2` (which includes every interface input with
`λ < 2μ`; the sign conditions genuinely fail for interface inputs with
`ρ > 2`), the constructed generator has exactly the claimed 4×4 form with
`u = up_rate`, `d = down_rate`, `f = failure_rate`, each row sums to zero,
off-diagonal entries are `≥ 0`, diagonal entries are `≤ 0`, and the Failure
row is all zero.  (Form, zero row sums and the absorbing Failure row hold
for all inputs; only the sign conditions need `ρ < 2`.) -/
theorem buildQ_generator_form (lam mu : ℚ) (hlam : 0 ≤ lam) (hmu : 0 < mu)
    (hrho : lam / mu < 2) :
    buildQ ℚ lam mu =
        !![-(up_rate ℚ lam mu), up_rate ℚ lam mu, 0, 0;
          down_rate ℚ mu, -(up_rate ℚ lam mu + down_rate ℚ mu), up_rate ℚ lam mu, 0;
          0, down_rate ℚ mu, -(failure_rate ℚ lam mu + down_rate ℚ mu),
            failure_rate ℚ lam mu;
          0, 0, 0, 0] ∧
      (∀ i, ∑ j, buildQ ℚ lam mu i j = 0) ∧
      (∀ i j, i ≠ j → 0 ≤ buildQ ℚ lam mu i j) ∧
      (∀ i, buildQ ℚ lam mu i i ≤ 0) ∧
      (∀ j, buildQ ℚ lam mu 3 j = 0) :=
  ⟨rfl, buildQ_rowsum lam mu, fun _ _ hij => buildQ_offdiag_nonneg hlam hmu hrho hij,
    buildQ_diag_nonpos hlam hmu hrho, buildQ_absorbing lam mu⟩

theorem buildQ_generator_form_witness :
    (0 : ℚ) ≤ 95 ∧ (0 : ℚ) < 100 ∧ (95 : ℚ) / 100 < 2 ∧
      ((∀ i, ∑ j, buildQ ℚ 95 100 i j = 0) ∧
        (∀ i j, i ≠ j → 0 ≤ buildQ ℚ 95 100 i j) ∧
        (∀ i, buildQ ℚ 95 100 i i ≤ 0) ∧
        (∀ j, buildQ ℚ 95 100 3 j = 0)) := by
  have h := buildQ_generator_form 95 100 (by norm_num) (by norm_num) (by norm_num)
  exact ⟨by norm_num, by norm_num, by norm_num, h.2⟩

/-! ### Matrix-exponential infrastructure

`scipy.linalg.expm` is embedded as the mathematical matrix exponential
`NormedSpace.exp ℝ`.  The lemmas below establish the three structural facts
the transient claims rest on: for a generator matrix (off-diagonal ≥ 0, zero
row sums) the exponential has non-negative entries and unit row sums, and an
all-zero row of the generator becomes the corresponding standard basis row of
the exponential (absorbing state). -/

section ExpInfra

open NormedSpace

variable {m : Type*} [Fintype m] [DecidableEq m]

/-- Entry extraction as an additive monoid homomorphism. -/
def entryHom (i j : m) : Matrix m m ℝ →+ ℝ where
  toFun A := A i j
  map_zero' := rfl
  map_add' _ _ := rfl

theorem exp_entry_hasSum (A : Matrix m m ℝ) (i j : m) :
    HasSum (fun n : ℕ => (n.factorial⁻¹ : ℝ) • (A ^ n) i j) (exp ℝ A i j) := by
  letI : SeminormedRing (Matrix m m ℝ) := Matrix.linftyOpSemiNormedRing
  letI : NormedRing (Matrix m m ℝ) := Matrix.linftyOpNormedRing
  letI : NormedAlgebra ℝ (Matrix m m ℝ) := Matrix.linftyOpNormedAlgebra
  have h := exp_series_hasSum_exp' (𝕂 := ℝ) A
  have hc : Continuous (fun B : Matrix m m ℝ => B i j) :=
    (continuous_apply j).comp (continuous_apply i)
  have h2 := h.map (entryHom i j) hc
  convert h2 using 1

theorem pow_entry_nonneg {A : Matrix m m ℝ} (hA : ∀ i j, 0 ≤ A i j) (n : ℕ) :
    ∀ i j, 0 ≤ (A ^ n) i j := by
  induction n with
  | zero =>
    intro i j
    rw [pow_zero]
    by_cases hij : i = j <;> simp [Matrix.one_apply, hij]
  | succ n ih =>
    intro i j
    rw [pow_succ, Matrix.mul_apply]
    exact Finset.sum_nonneg fun k _ => mul_nonneg (ih i k) (hA k j)

theorem exp_entry_nonneg_of_nonneg {A : Matrix m m ℝ} (hA : ∀ i j, 0 ≤ A i j)
    (i j : m) : 0 ≤ exp ℝ A i j :=
  (exp_entry_hasSum A i j).nonneg fun n =>
    smul_nonneg (by positivity) (pow_entry_nonneg hA n i j)

theorem exp_smul_one (c : ℝ) :
    exp ℝ (c • (1 : Matrix m m ℝ)) = Real.exp c • (1 : Matrix m m ℝ) := by
  letI : SeminormedRing (Matrix m m ℝ) := Matrix.linftyOpSemiNormedRing
  letI : NormedRing (Matrix m m ℝ) := Matrix.linftyOpNormedRing
  letI : NormedAlgebra ℝ (Matrix m m ℝ) := Matrix.linftyOpNormedAlgebra
  have halg : c • (1 : Matrix m m ℝ) = algebraMap ℝ (Matrix m m ℝ) c :=
    (Algebra.algebraMap_eq_smul_one c).symm
  rw [halg, ← map_exp ℝ (algebraMap ℝ (Matrix m m ℝ)) (algebraMapCLM ℝ _).continuous c]
  rw [Algebra.algebraMap_eq_smul_one, Real.exp_eq_exp_ℝ]

theorem pow_row_sum_zero {A : Matrix m m ℝ} (hA : ∀ i, ∑ j, A i j = 0)
    (k : ℕ) (i : m) : ∑ j, (A ^ (k + 1)) i j = 0 := by
  rw [pow_succ]
  simp only [Matrix.mul_apply]
  rw [Finset.sum_comm]
  have h1 : ∀ l ∈ Finset.univ, ∑ j, (A ^ k) i l * A l j = 0 := by
    intro l _
    rw [← Finset.mul_sum, hA l, mul_zero]
  rw [Finset.sum_congr rfl h1]
  simp

theorem one_row_sum (i : m) : ∑ j, (1 : Matrix m m ℝ) i j = 1 := by
  simp [Matrix.one_apply]

theorem exp_row_sum_one {A : Matrix m m ℝ} (hA : ∀ i, ∑ j, A i j = 0) (i : m) :
    ∑ j, exp ℝ A i j = 1 := by
  have hs : HasSum (fun n : ℕ => ∑ j, (n.factorial⁻¹ : ℝ) • (A ^ n) i j)
      (∑ j, exp ℝ A i j) :=
    hasSum_sum fun j _ => exp_entry_hasSum A i j
  have hfun : (fun n : ℕ => ∑ j, (n.factorial⁻¹ : ℝ) • (A ^ n) i j) =
      fun n : ℕ => if n = 0 then (1 : ℝ) else 0 := by
    funext n
    rw [← Finset.smul_sum]
    cases n with
    | zero => simp [one_row_sum i]
    | succ k => simp [pow_row_sum_zero hA k i]
  rw [hfun] at hs
  exact hs.unique (hasSum_ite_eq 0 1)

theorem pow_absorbing_row {A : Matrix m m ℝ} {r : m} (hr : ∀ j, A r j = 0)
    (k : ℕ) (j : m) : (A ^ (k + 1)) r j = 0 := by
  rw [pow_succ']
  simp only [Matrix.mul_apply]
  have h1 : ∀ l ∈ Finset.univ, A r l * (A ^ k) l j = 0 := by
    intro l _
    rw [hr l, zero_mul]
  rw [Finset.sum_congr rfl h1]
  simp

theorem exp_absorbing_row {A : Matrix m m ℝ} {r : m} (hr : ∀ j, A r j = 0)
    (j : m) : exp ℝ A r j = (1 : Matrix m m ℝ) r j := by
  have hs := exp_entry_hasSum A r j
  have hfun : (fun n : ℕ => (n.factorial⁻¹ : ℝ) • (A ^ n) r j) =
      fun n : ℕ => if n = 0 then (1 : Matrix m m ℝ) r j else 0 := by
    funext n
    cases n with
    | zero => simp
    | succ k => simp [pow_absorbing_row hr k j]
  rw [hfun] at hs
  exact hs.unique (hasSum_ite_eq 0 _)

theorem exp_generator_entry_nonneg {A : Matrix m m ℝ}
    (hoff : ∀ i j, i ≠ j → 0 ≤ A i j) (hrow : ∀ i, ∑ j, A i j = 0) (i j : m) :
    0 ≤ exp ℝ A i j := by
  classical
  set α : ℝ := ∑ k, (-A k k) with hα
  have hdiag : ∀ k, A k k ≤ 0 := by
    intro k
    have h := hrow k
    rw [← Finset.add_sum_erase _ _ (Finset.mem_univ k)] at h
    have hsum : 0 ≤ ∑ j ∈ Finset.univ.erase k, A k j :=
      Finset.sum_nonneg fun l hl =>
        hoff k l fun he => (Finset.mem_erase.mp hl).1 he.symm
    linarith
  have hB : ∀ i' j', 0 ≤ (α • (1 : Matrix m m ℝ) + A) i' j' := by
    intro i' j'
    by_cases hij : i' = j'
    · subst hij
      have h1 : -A i' i' ≤ α := by
        rw [hα]
        exact Finset.single_le_sum (f := fun k => -A k k)
          (fun k _ => neg_nonneg.mpr (hdiag k)) (Finset.mem_univ i')
      simp [Matrix.one_apply]
      linarith
    · simp [Matrix.one_apply, hij]
      exact hoff i' j' hij
  have hsplit : A = (-α) • (1 : Matrix m m ℝ) + (α • 1 + A) := by
    rw [← add_assoc, ← add_smul]
    simp
  have hcomm : Commute ((-α) • (1 : Matrix m m ℝ)) (α • 1 + A) :=
    (Commute.one_left _).smul_left (-α)
  rw [hsplit, Matrix.exp_add_of_commute ℝ _ _ hcomm, exp_smul_one]
  rw [Matrix.smul_mul, Matrix.one_mul]
  have := exp_entry_nonneg_of_nonneg hB i j
  simpa using mul_nonneg (Real.exp_pos (-α)).le this

end ExpInfra

/-! ### The transient solve -/

open NormedSpace

/-- `P0 = np.array([1.0, 0.0, 0.0, 0.0])` (line 2842): start in Idle. -/
def P0 : Fin 4 → ℝ := ![1, 0, 0, 0]

/-- `Pt = P0 @ expm(Q * t)` (lines 2846 and 2963). -/
noncomputable def Pt (lam mu t : ℝ) : Fin 4 → ℝ :=
  Matrix.vecMul P0 (exp ℝ (t • buildQ ℝ lam mu))

/-- The `crash_probs` value at time `t` (lines 2956-2967): the loop
special-cases `t = 0` to `0` and otherwise reads `P_t[3]`. -/
noncomputable def failureProb (lam mu t : ℝ) : ℝ :=
  if t = 0 then 0 else Pt lam mu t 3

/-- A valid CTMC generator: non-negative off-diagonal entries and zero row
sums. -/
def IsGenerator (Q : Matrix (Fin 4) (Fin 4) ℝ) : Prop :=
  (∀ i j, i ≠ j → 0 ≤ Q i j) ∧ ∀ i, ∑ j, Q i j = 0

theorem isGenerator_buildQ {lam mu : ℝ} (hlam : 0 ≤ lam) (hmu : 0 < mu)
    (hrho : lam / mu < 2) : IsGenerator (buildQ ℝ lam mu) :=
  ⟨fun _ _ hij => buildQ_offdiag_nonneg hlam hmu hrho hij, buildQ_rowsum lam mu⟩

theorem P0_nonneg : ∀ i, 0 ≤ P0 i := by
  intro i
  fin_cases i <;> norm_num [P0]

theorem P0_sum : ∑ i, P0 i = 1 := by
  simp [P0, Fin.sum_univ_four]

theorem smulQ_offdiag {lam mu t : ℝ} (ht : 0 ≤ t)
    (hQ : IsGenerator (buildQ ℝ lam mu)) :
    ∀ i j, i ≠ j → 0 ≤ (t • buildQ ℝ lam mu) i j := by
  intro i j hij
  have h := hQ.1 i j hij
  simp only [Matrix.smul_apply, smul_eq_mul]
  exact mul_nonneg ht h

theorem smulQ_rowsum (lam mu t : ℝ) :
    ∀ i, ∑ j, (t • buildQ ℝ lam mu) i j = 0 := by
  intro i
  simp only [Matrix.smul_apply, smul_eq_mul]
  rw [← Finset.mul_sum, buildQ_rowsum lam mu i, mul_zero]

theorem Pt_apply (lam mu t : ℝ) (j : Fin 4) :
    Pt lam mu t j = ∑ i, P0 i * exp ℝ (t • buildQ ℝ lam mu) i j := by
  simp [Pt, Matrix.vecMul, Matrix.dotProduct]

theorem Pt_nonneg {lam mu t : ℝ} (ht : 0 ≤ t)
    (hQ : IsGenerator (buildQ ℝ lam mu)) (j : Fin 4) : 0 ≤ Pt lam mu t j := by
  rw [Pt_apply]
  exact Finset.sum_nonneg fun i _ =>
    mul_nonneg (P0_nonneg i)
      (exp_generator_entry_nonneg (smulQ_offdiag ht hQ) (smulQ_rowsum lam mu t) i j)

theorem Pt_sum {lam mu t : ℝ} (ht : 0 ≤ t)
    (hQ : IsGenerator (buildQ ℝ lam mu)) : ∑ j, Pt lam mu t j = 1 := by
  have h1 : ∀ j, Pt lam mu t j = ∑ i, P0 i * exp ℝ (t • buildQ ℝ lam mu) i j :=
    Pt_apply lam mu t
  rw [Finset.sum_congr rfl fun j _ => h1 j, Finset.sum_comm]
  have h2 : ∀ i ∈ Finset.univ,
      ∑ j, P0 i * exp ℝ (t • buildQ ℝ lam mu) i j = P0 i := by
    intro i _
    rw [← Finset.mul_sum, exp_row_sum_one (smulQ_rowsum lam mu t) i, mul_one]
  rw [Finset.sum_congr rfl h2]
  exact P0_sum

theorem Pt_zero (lam mu : ℝ) : Pt lam mu 0 = P0 := by
  unfold Pt
  rw [zero_smul, exp_zero, Matrix.vecMul_one]

/-- C2: for every generator built by the solver (`IsGenerator` of the
constructed `Q`), the solved state distribution `P(t) = P0 · exp(Q·t)` has
all four entries `≥ 0` and summing to `1` for every `t ≥ 0`, and at `t = 0`
it equals `P0` exactly. -/
theorem solve_returns_distribution (lam mu t : ℝ) (ht : 0 ≤ t)
    (hQ : IsGenerator (buildQ ℝ lam mu)) :
    (∀ j, 0 ≤ Pt lam mu t j) ∧ (∑ j, Pt lam mu t j = 1) ∧ Pt lam mu 0 = P0 :=
  ⟨fun j => Pt_nonneg ht hQ j, Pt_sum ht hQ, Pt_zero lam mu⟩

theorem solve_returns_distribution_witness :
    (0 : ℝ) ≤ 1 ∧ IsGenerator (buildQ ℝ 95 100) ∧
      ((∀ j, 0 ≤ Pt 95 100 1 j) ∧ (∑ j, Pt 95 100 1 j = 1) ∧
        Pt 95 100 0 = P0) :=
  ⟨by norm_num, isGenerator_buildQ (by norm_num) (by norm_num) (by norm_num),
    solve_returns_distribution 95 100 1 (by norm_num)
      (isGenerator_buildQ (by norm_num) (by norm_num) (by norm_num))⟩

theorem Pt_failure_mono {lam mu t₁ t₂ : ℝ} (h1 : 0 ≤ t₁) (h12 : t₁ ≤ t₂)
    (hQ : IsGenerator (buildQ ℝ lam mu)) :
    Pt lam mu t₁ 3 ≤ Pt lam mu t₂ 3 := by
  set Q := buildQ ℝ lam mu with hQdef
  have hd : 0 ≤ t₂ - t₁ := by linarith
  have hsplit : t₂ • Q = t₁ • Q + (t₂ - t₁) • Q := by
    rw [← add_smul]
    ring_nf
  have hcomm : Commute (t₁ • Q) ((t₂ - t₁) • Q) :=
    ((Commute.refl Q).smul_left t₁).smul_right (t₂ - t₁)
  have hPt2 : Pt lam mu t₂ = Matrix.vecMul (Pt lam mu t₁) (exp ℝ ((t₂ - t₁) • Q)) := by
    unfold Pt
    rw [← hQdef, hsplit, Matrix.exp_add_of_commute ℝ _ _ hcomm,
      ← Matrix.vecMul_vecMul]
  rw [hPt2]
  have hEnn : ∀ i j, 0 ≤ exp ℝ ((t₂ - t₁) • Q) i j := fun i j =>
    exp_generator_entry_nonneg (smulQ_offdiag hd hQ) (smulQ_rowsum lam mu (t₂ - t₁)) i j
  have hErow3 : exp ℝ ((t₂ - t₁) • Q) 3 3 = 1 := by
    have habs : ∀ j, ((t₂ - t₁) • Q) 3 j = 0 := by
      intro j
      simp only [Matrix.smul_apply, smul_eq_mul, hQdef]
      rw [buildQ_absorbing lam mu j, mul_zero]
    rw [exp_absorbing_row habs 3, Matrix.one_apply_eq]
  have hvm : Matrix.vecMul (Pt lam mu t₁) (exp ℝ ((t₂ - t₁) • Q)) 3 =
      ∑ i, Pt lam mu t₁ i * exp ℝ ((t₂ - t₁) • Q) i 3 := by
    simp [Matrix.vecMul, Matrix.dotProduct]
  rw [hvm]
  have hle : Pt lam mu t₁ 3 * exp ℝ ((t₂ - t₁) • Q) 3 3 ≤
      ∑ i, Pt lam mu t₁ i * exp ℝ ((t₂ - t₁) • Q) i 3 :=
    Finset.single_le_sum
      (f := fun i => Pt lam mu t₁ i * exp ℝ ((t₂ - t₁) • Q) i 3)
      (fun i _ => mul_nonneg (Pt_nonneg h1 hQ i) (hEnn i 3)) (Finset.mem_univ 3)
  rw [hErow3, mul_one] at hle
  exact hle

/-- C3: for every generator built by the solver and all times
`0 ≤ t₁ ≤ t₂`, the Failure-state probability reported by the transient
sweep is monotonically non-decreasing: `failureProb t₁ ≤ failureProb t₂`
(Failure being absorbing). -/
theorem failureProb_monotone (lam mu t₁ t₂ : ℝ) (h1 : 0 ≤ t₁) (h12 : t₁ ≤ t₂)
    (hQ : IsGenerator (buildQ ℝ lam mu)) :
    failureProb lam mu t₁ ≤ failureProb lam mu t₂ := by
  unfold failureProb
  by_cases h10 : t₁ = 0
  · rw [if_pos h10]
    by_cases h20 : t₂ = 0
    · rw [if_pos h20]
    · rw [if_neg h20]
      exact Pt_nonneg (by linarith) hQ 3
  · have h1pos : 0 < t₁ := lt_of_le_of_ne h1 (Ne.symm h10)
    have h20 : t₂ ≠ 0 := (lt_of_lt_of_le h1pos h12).ne'
    rw [if_neg h10, if_neg h20]
    exact Pt_failure_mono h1 h12 hQ

theorem failureProb_monotone_witness :
    (0 : ℝ) ≤ 1 ∧ (1 : ℝ) ≤ 2 ∧ IsGenerator (buildQ ℝ 95 100) ∧
      failureProb 95 100 1 ≤ failureProb 95 100 2 :=
  ⟨by norm_num, by norm_num,
    isGenerator_buildQ (by norm_num) (by norm_num) (by norm_num),
    failureProb_monotone 95 100 1 2 (by norm_num) (by norm_num)
      (isGenerator_buildQ (by norm_num) (by norm_num) (by norm_num))⟩

end ECommOpt
